import Mathlib

/-!
Verification of the composable-block abstraction and device-placement
helpers of the d2l-tensorflow notebooks.

Tensors are embedded over the rationals: a vector is `List ℚ` and a
2-D tensor (a batch of rows) is `List (List ℚ)`.  Machine floats carry
no semantics the claims depend on beyond exact arithmetic, so exact
rationals stand in for them.
-/

namespace D2L

/-- A 2-D tensor: a list of rows. -/
abbrev Mat := List (List ℚ)

/-! ## The composable block (model-construction.ipynb)

`MySequential` holds an ordered list of blocks (`self.modules`) and its
`call` threads the input through them in insertion order:

    def call(self, x):
        for module in self.modules:
            x = module(x)
        return x

A block is either a leaf unit (an arbitrary input-to-output transform,
such as a Dense layer) or a sequential container of child blocks. -/
inductive Block where
  | unit : (Mat → Mat) → Block
  | seq : List Block → Block

mutual

/-- Forward computation of a block.  A leaf applies its transform; a
container runs the loop of `MySequential.call` over its children. -/
def Block.apply : Block → Mat → Mat
  | .unit f, x => f x
  | .seq bs, x => applyList bs x

/-- The loop body of `MySequential.call`: `for module in modules: x = module(x)`. -/
def applyList : List Block → Mat → Mat
  | [], x => x
  | b :: bs, x => applyList bs (b.apply x)

end

/-- `MySequential.__init__(*args)` appends each argument block to a fresh
list; it performs no validation and has no failure path. -/
def MySequential (args : List Block) : Block := Block.seq args

/-- Modelled from the spec: the left-to-right composition
`un.apply(...u2.apply(u1.apply(x))...)` that section 8 of the spec says a
Container must compute, written as nested function composition. -/
def chainCompose : List Block → (Mat → Mat)
  | [] => id
  | u :: us => chainCompose us ∘ u.apply

theorem applyList_append (as bs : List Block) (x : Mat) :
    applyList (as ++ bs) x = applyList bs (applyList as x) := by
  induction as generalizing x with
  | nil => rfl
  | cons a as ih => simp [applyList, ih]

theorem applyList_eq_chainCompose (us : List Block) (x : Mat) :
    applyList us x = chainCompose us x := by
  induction us generalizing x with
  | nil => rfl
  | cons u us ih => simp [applyList, chainCompose, ih]

/-- Claim C1: a Container built from units `[u1, ..., un]` computes, on every
input, the left-to-right composition of its children: each child receives the
output of the previous one, in insertion order, and the output of the
Container is the output of the last child.  The container side is the loop of
`MySequential.call`; the right-hand side is the nested composition the spec
writes out. -/
theorem container_apply_is_chain (us : List Block) (x : Mat) :
    (MySequential us).apply x = chainCompose us x := by
  simpa [MySequential, Block.apply] using applyList_eq_chainCompose us x

/-- Claim C2: a Container constructed from the empty sequence of children is
legal (construction is total) and its apply is the identity: the loop of
`MySequential.call` over no modules returns the input unchanged. -/
theorem empty_container_identity (x : Mat) :
    (MySequential []).apply x = x := rfl

/-- Claim C3: nesting is associative.  Wrapping any contiguous sub-sequence
`bs` of children inside its own Container gives, on every input, the same
output as the flat container; in particular
`Container([u1, Container([u2, u3]), u4])` agrees with
`Container([u1, u2, u3, u4])` everywhere. -/
theorem container_nesting_assoc (as bs cs : List Block) (x : Mat) :
    (MySequential (as ++ [MySequential bs] ++ cs)).apply x
      = (MySequential (as ++ bs ++ cs)).apply x := by
  simp [MySequential, Block.apply, applyList_append, applyList]

/-! ## Construction well-formedness (claim C8)

`MySequential.__init__` only appends already-constructed blocks to a fresh
list, so a container can never become one of its own (transitive) children:
every argument block exists in full before the container does.  The
direct-child relation is therefore well-founded and cyclic child references
are unrepresentable; construction is total and never has to raise. -/

/-- `ChildOf b c` holds when `b` is one of the direct children of the
container `c`. -/
def ChildOf (b c : Block) : Prop :=
  ∃ bs, c = Block.seq bs ∧ b ∈ bs

theorem sizeOf_lt_of_childOf {b c : Block} (h : ChildOf b c) :
    sizeOf b < sizeOf c := by
  obtain ⟨bs, rfl, hmem⟩ := h
  have hlt : sizeOf b < sizeOf bs := List.sizeOf_lt_of_mem hmem
  simp only [Block.seq.sizeOf_spec]
  omega

theorem sizeOf_lt_of_descendant {b c : Block}
    (h : Relation.TransGen ChildOf b c) : sizeOf b < sizeOf c := by
  induction h with
  | single h₁ => exact sizeOf_lt_of_childOf h₁
  | tail _ h₂ ih => exact ih.trans (sizeOf_lt_of_childOf h₂)

/-- Claim C8: no block is a strict descendant of itself through the
child relation, so a Container with a cyclic child reference cannot be
constructed at all: `MySequential` receives only fully-constructed blocks
and appends them, making the rejection of cyclic containers structural
(before any apply call) rather than a runtime error, and leaving
construction total with every error path synchronous and unretried. -/
theorem no_cyclic_container (b c : Block)
    (h : Relation.TransGen ChildOf b c) : b ≠ c := by
  intro heq
  subst heq
  exact lt_irrefl _ (sizeOf_lt_of_descendant h)

/-- Witness for C8 at a concrete nesting: the empty container is a strict
descendant of the container holding it, hence distinct from it. -/
theorem no_cyclic_container_witness :
    MySequential [] ≠ MySequential [MySequential []] :=
  no_cyclic_container _ _
    (Relation.TransGen.single ⟨[MySequential []], rfl, by simp [MySequential]⟩)

/-! ## Concrete layers: Dense, MLP, FixedHiddenMLP

`tf.keras.layers.Dense(units, activation)` computes `act(x @ W + b)` on a
batch `x` of row vectors.  The activation is either `tf.nn.relu`
(elementwise `max 0`) or absent (linear). -/

/-- Dot product of two vectors. -/
def dot (a b : List ℚ) : ℚ := (List.zipWith (· * ·) a b).sum

/-- Row-major matrix product: row `i` of the result holds the dot products
of row `i` of `A` with each column of `B`. -/
def matmul (A B : Mat) : Mat :=
  A.map fun row => B.transpose.map fun col => dot row col

/-- Broadcast addition of a bias vector to every row of a batch. -/
def addBias (A : Mat) (b : List ℚ) : Mat :=
  A.map fun row => List.zipWith (· + ·) row b

/-- Elementwise rectified linear activation, `tf.nn.relu`. -/
def reluMat (A : Mat) : Mat := A.map fun row => row.map fun a => max a 0

/-- Parameters of one `tf.keras.layers.Dense` layer: the kernel, the bias,
and whether the relu activation is attached. -/
structure DenseParams where
  weight : Mat
  bias : List ℚ
  useRelu : Bool

/-- Forward computation of a Dense layer: `act(x @ W + b)`. -/
def denseApply (p : DenseParams) (x : Mat) : Mat :=
  let z := addBias (matmul x p.weight) p.bias
  if p.useRelu then reluMat z else z

/-- Parameter state of the custom `MLP` block: a hidden Dense layer with
relu and a linear output Dense layer. -/
structure MLPState where
  hidden : DenseParams
  out : DenseParams

/-- `MLP.call(self, x): return self.out(self.hidden(x))`.  The method reads
`self.hidden` and `self.out` and assigns nothing to `self`, so the state is
threaded through unchanged. -/
def MLP.call (s : MLPState) (x : Mat) : MLPState × Mat :=
  (s, denseApply s.out (denseApply s.hidden x))

/-! ### FixedHiddenMLP

    def call(self, inputs):
        x = self.flatten(inputs)
        x = tf.nn.relu(tf.matmul(x, self.rand_weight) + 1)
        x = self.dense(x)
        while tf.norm(x) > 1:
            x /= 2
        return tf.reduce_sum(x)

`tf.norm` is the Euclidean norm, so the guard `norm(x) > 1` is equivalent
to `sumSq x > 1` (squaring on nonnegative reals is monotone), which keeps
the embedding in exact rational arithmetic. -/

/-- Elementwise addition of a scalar to a batch (the `+ 1` broadcast). -/
def addConst (A : Mat) (c : ℚ) : Mat := A.map fun row => row.map fun a => a + c

/-- One loop body `x /= 2`: halve every entry. -/
def halveMat (A : Mat) : Mat := A.map fun row => row.map fun a => a / 2

/-- Sum of squares of one row. -/
def sumSqRow (r : List ℚ) : ℚ := (r.map fun a => a * a).sum

/-- Sum of squares of all entries: the square of `tf.norm`. -/
def sumSq (A : Mat) : ℚ := (A.map sumSqRow).sum

/-- `tf.reduce_sum`: sum of all entries. -/
def matSum (A : Mat) : ℚ := (A.map List.sum).sum

/-- Fuel-indexed unfolding of `while tf.norm(x) > 1: x /= 2`: `none` means
the fuel ran out before the guard went false. -/
def whileHalve : ℕ → Mat → Option Mat
  | 0, x => if sumSq x ≤ 1 then some x else none
  | n + 1, x => if sumSq x ≤ 1 then some x else whileHalve n (halveMat x)

/-- The loop of `FixedHiddenMLP.call`, run with enough fuel (the ceiling of
the sum of squares) for the guard to go false; the termination theorem
shows this fuel always suffices. -/
def fixedLoop (x : Mat) : Option Mat := whileHalve ⌈sumSq x⌉₊ x

/-- `tf.keras.layers.Flatten` on an already 2-D batch keeps the batch axis
and flattens the rest, which is the identity here. -/
def flatten2d (x : Mat) : Mat := x

/-- State of `FixedHiddenMLP`: the constant tensor `rand_weight` drawn once
at construction (`tf.constant(tf.random.uniform((20, 20)))`) and the Dense
layer `self.dense` (20 units, relu). -/
structure FHState where
  rand_weight : Mat
  dense : DenseParams

/-- Forward computation of `FixedHiddenMLP` (source quoted above).  Every
assignment in the method targets the local `x`, never `self`, so the state
comes back unchanged; the loop is `fixedLoop`. -/
def FixedHiddenMLP.call (s : FHState) (inputs : Mat) : FHState × Option ℚ :=
  let x1 := flatten2d inputs
  let x2 := reluMat (addConst (matmul x1 s.rand_weight) 1)
  let x3 := denseApply s.dense x2
  (s, (fixedLoop x3).map matSum)

/-! ### Termination of the halving loop -/

theorem sumSqRow_halve (r : List ℚ) :
    sumSqRow (r.map fun a => a / 2) = sumSqRow r / 4 := by
  induction r with
  | nil => simp [sumSqRow]
  | cons a r ih =>
      simp only [List.map_cons, sumSqRow, List.sum_cons] at ih ⊢
      rw [ih]
      ring

theorem sumSq_halveMat (A : Mat) : sumSq (halveMat A) = sumSq A / 4 := by
  induction A with
  | nil => simp [sumSq, halveMat]
  | cons r A ih =>
      simp only [halveMat, List.map_cons, sumSq, List.sum_cons] at ih ⊢
      rw [sumSqRow_halve, ih]
      ring

theorem whileHalve_some (n : ℕ) (A : Mat) (h : sumSq A ≤ 4 ^ n) :
    ∃ B, whileHalve n A = some B ∧ sumSq B ≤ 1 := by
  induction n generalizing A with
  | zero =>
      refine ⟨A, ?_, by simpa using h⟩
      simp only [whileHalve, pow_zero] at h ⊢
      simp [h]
  | succ n ih =>
      by_cases hle : sumSq A ≤ 1
      · exact ⟨A, by simp [whileHalve, hle], hle⟩
      · have hstep : sumSq (halveMat A) ≤ 4 ^ n := by
          rw [sumSq_halveMat]
          rw [pow_succ] at h
          linarith
        obtain ⟨B, hB, hB1⟩ := ih (halveMat A) hstep
        exact ⟨B, by simp [whileHalve, hle, hB], hB1⟩

theorem fixedLoop_some (A : Mat) :
    ∃ B, fixedLoop A = some B ∧ sumSq B ≤ 1 := by
  have h1 : sumSq A ≤ (⌈sumSq A⌉₊ : ℚ) := Nat.le_ceil _
  have h2 : (⌈sumSq A⌉₊ : ℚ) ≤ 4 ^ ⌈sumSq A⌉₊ := by
    have hn : (⌈sumSq A⌉₊ : ℕ) < 4 ^ ⌈sumSq A⌉₊ := Nat.lt_pow_self (by norm_num) _
    exact_mod_cast hn.le
  exact whileHalve_some _ A (h1.trans h2)

/-- Claim C6: on every input batch (rational entries embed the finite
floats), the while loop of `FixedHiddenMLP.call` that halves `x` while
`norm(x) > 1` exits after finitely many iterations — the fuel-indexed
loop reaches its guard — and `call` returns the sum of a tensor whose
sum of squares is at most 1, that is whose Euclidean norm is at most 1. -/
theorem fixedHiddenMLP_terminates (s : FHState) (inputs : Mat) :
    ∃ y, fixedLoop (denseApply s.dense
        (reluMat (addConst (matmul (flatten2d inputs) s.rand_weight) 1))) = some y
      ∧ sumSq y ≤ 1
      ∧ (FixedHiddenMLP.call s inputs).2 = some (matSum y) := by
  obtain ⟨y, hy, h1⟩ := fixedLoop_some
    (denseApply s.dense (reluMat (addConst (matmul (flatten2d inputs) s.rand_weight) 1)))
  exact ⟨y, hy, h1, by simp [FixedHiddenMLP.call, hy]⟩

/-- Claim C4: `call` never mutates the parameter or constant state of a
unit.  For `FixedHiddenMLP` (whose method body assigns only to the local
`x`) the state returned with the output is the incoming state, so the
constant `rand_weight` is bit-identical across repeated calls with no
update step in between; the same frame condition holds for `MLP`. -/
theorem apply_no_mutation (s : FHState) (m : MLPState) (x₁ x₂ : Mat) :
    (FixedHiddenMLP.call s x₁).1 = s
      ∧ ((FixedHiddenMLP.call (FixedHiddenMLP.call s x₁).1 x₂).1).rand_weight
          = s.rand_weight
      ∧ (MLP.call m x₁).1 = m :=
  ⟨rfl, rfl, rfl⟩

/-- Claim C5: a unit that samples no randomness in its forward pass is
deterministic: two `MLP.call` runs over equal parameter states and equal
inputs return equal outputs. -/
theorem mlp_deterministic (m₁ m₂ : MLPState) (x₁ x₂ : Mat)
    (hm : m₁ = m₂) (hx : x₁ = x₂) :
    (MLP.call m₁ x₁).2 = (MLP.call m₂ x₂).2 := by
  subst hm
  subst hx
  rfl

/-- A small concrete parameter state used to instantiate determinism. -/
def mlpDemo : MLPState :=
  ⟨⟨[[1], [2]], [3], true⟩, ⟨[[2]], [1], false⟩⟩

/-- Witness for C5: two runs of `MLP.call` on a concrete state and input
agree. -/
theorem mlp_deterministic_witness :
    (MLP.call mlpDemo [[1, 2]]).2 = (MLP.call mlpDemo [[1, 2]]).2 :=
  mlp_deterministic mlpDemo mlpDemo [[1, 2]] [[1, 2]] rfl rfl

/-! ## Compute locations (the GPU notebook)

`tf.device(...)` contexts are named by the processor kind and index.  The
environment is summarised by `numGpus`, the length of the list of physical
GPU devices the framework reports. -/

/-- A compute location: `/CPU:i` or `/GPU:i`. -/
inductive Loc where
  | cpu : ℕ → Loc
  | gpu : ℕ → Loc
deriving DecidableEq

/-- `try_gpu(i)`: return the device context for GPU `i` if it exists,
otherwise the one for CPU 0.  The source checks whether the number of
listed physical GPUs is at least `i + 1` and returns `tf.device` of GPU
`i` in that case, falling back to the CPU 0 device. -/
def try_gpu (numGpus i : ℕ) : Loc :=
  if numGpus ≥ i + 1 then Loc.gpu i else Loc.cpu 0

/-- `try_all_gpus()`: one context per listed GPU, else the one-element
CPU list.  The source builds `ctxes`, the comprehension of GPU device
contexts over the range of the GPU count, and returns it when non-empty,
falling back to the list holding only the CPU 0 device. -/
def try_all_gpus (numGpus : ℕ) : List Loc :=
  let ctxes := (List.range numGpus).map Loc.gpu
  if ctxes = [] then [Loc.cpu 0] else ctxes

/-- Claim C9: `try_gpu(i)` never fails; it returns the GPU `i` context
exactly when at least `i + 1` GPUs are listed, and the CPU 0 context
otherwise. -/
theorem try_gpu_total (n i : ℕ) :
    (i + 1 ≤ n → try_gpu n i = Loc.gpu i)
      ∧ (n < i + 1 → try_gpu n i = Loc.cpu 0) := by
  refine ⟨fun h => ?_, fun h => ?_⟩
  · simp [try_gpu, h]
  · have hnot : ¬ n ≥ i + 1 := by omega
    simp [try_gpu, hnot]

/-- Witness for C9: with two listed GPUs, `try_gpu(0)` yields GPU 0 and
`try_gpu(3)` falls back to CPU 0, as in the notebook. -/
theorem try_gpu_total_witness :
    try_gpu 2 0 = Loc.gpu 0 ∧ try_gpu 2 3 = Loc.cpu 0 :=
  ⟨(try_gpu_total 2 0).1 (by decide), (try_gpu_total 2 3).2 (by decide)⟩

/-- Claim C10: `try_all_gpus()` always returns a non-empty list: with
`n ≥ 1` GPUs it is exactly one context per GPU in index order `0..n-1`,
and with none it is the one-element list holding the CPU 0 context. -/
theorem try_all_gpus_total (n : ℕ) :
    try_all_gpus n ≠ []
      ∧ (1 ≤ n → try_all_gpus n = (List.range n).map Loc.gpu)
      ∧ (n = 0 → try_all_gpus n = [Loc.cpu 0]) := by
  rcases n with _ | m
  · exact ⟨by simp [try_all_gpus], fun h => by omega, fun _ => by simp [try_all_gpus]⟩
  · have hne : (List.range (m + 1)).map Loc.gpu ≠ [] := by simp
    exact ⟨by simp [try_all_gpus, hne], fun _ => by simp [try_all_gpus, hne],
      fun h => by omega⟩

/-- Witness for C10: two GPUs give `[GPU 0, GPU 1]`; none gives `[CPU 0]`. -/
theorem try_all_gpus_total_witness :
    try_all_gpus 2 = [Loc.gpu 0, Loc.gpu 1] ∧ try_all_gpus 0 = [Loc.cpu 0] :=
  ⟨((try_all_gpus_total 2).2.1 (by decide)).trans (by decide),
    (try_all_gpus_total 0).2.2 rfl⟩

/-! ## Device placement for binary operations (claim C7) -/

/-- Modelled from the spec: the error a binary operation surfaces when its
operands reside at different compute locations.  The operation semantics
live in the external Tensor Compute Engine (TensorFlow), not under `src/`;
the notebook only calls it, and section 6 of the spec states the contract. -/
inductive TensorErr where
  | PlacementMismatch
deriving DecidableEq

/-- Modelled from the spec: a tensor paired with the compute location its
storage resides at. -/
structure DTensor where
  loc : Loc
  data : List ℚ
deriving DecidableEq

/-- Modelled from the spec: an elementwise binary operation (such as the
notebook `y + z`) requires both operands at the same location and fails
with `PlacementMismatch` otherwise, with no automatic fallback copy. -/
def binOp (f : ℚ → ℚ → ℚ) (a b : DTensor) : Except TensorErr DTensor :=
  if a.loc = b.loc then .ok ⟨a.loc, List.zipWith f a.data b.data⟩
  else .error .PlacementMismatch

/-- Modelled from the spec: the transfer primitive copies the storage of a
tensor to a named location. -/
def transfer (t : DTensor) (l : Loc) : DTensor := ⟨l, t.data⟩

/-- Claim C7: any binary operation over two tensors at different compute
locations fails with `PlacementMismatch` (no fallback copy); after an
explicit transfer of one operand to the location of the other, the same
operation succeeds and returns the elementwise result there. -/
theorem placement_mismatch_contract (f : ℚ → ℚ → ℚ) (a b : DTensor)
    (h : a.loc ≠ b.loc) :
    binOp f a b = .error .PlacementMismatch
      ∧ binOp f (transfer a b.loc) b = .ok ⟨b.loc, List.zipWith f a.data b.data⟩ := by
  constructor
  · simp [binOp, h]
  · simp [binOp, transfer]

/-- Witness for C7 at the notebook scenario: adding a CPU-resident tensor
to a GPU-resident one fails, and succeeds elementwise after the transfer. -/
theorem placement_mismatch_contract_witness :
    binOp (· + ·) ⟨Loc.cpu 0, [1, 2, 3]⟩ ⟨Loc.gpu 1, [10, 20, 30]⟩
        = .error .PlacementMismatch
      ∧ binOp (· + ·) (transfer ⟨Loc.cpu 0, [1, 2, 3]⟩ (Loc.gpu 1))
          ⟨Loc.gpu 1, [10, 20, 30]⟩
        = .ok ⟨Loc.gpu 1, [11, 22, 33]⟩ := by
  have h := placement_mismatch_contract (· + ·)
    ⟨Loc.cpu 0, [1, 2, 3]⟩ ⟨Loc.gpu 1, [10, 20, 30]⟩ (by decide)
  exact ⟨h.1, h.2.trans (congrArg Except.ok (by norm_num [List.zipWith]))⟩

end D2L
